import Mathlib

/-!
Verification of the identification and weighted-scoring engine in
`floss/identification_manager.py`.

Modelling conventions:
* A Python `dict` is an insertion-ordered association list (CPython keeps
  insertion order; assignment to an existing key keeps its position, a new
  key is appended at the end).
* Metrics, weights and scores (Python floats) are modelled as rationals;
  every weight in the table (0.5, 0.3, 0.2, 0.025, -1.0) is exactly
  representable.
* A raised exception is an `Except.error`.
-/

namespace Floss

/-- Effective function address (an opaque integer identifier). -/
abbrev Fva := Nat

/-- Plugin identity: `str(plugin)`, the key into the weight table. -/
abbrev PluginName := String

/-- A metric a plugin assigns to a function. -/
abbrev Metric := ℚ

/-- `d[k]` on a Python dict modelled as an association list (also used for
`k in d.keys()` via `isSome`). -/
def dictGet {α β : Type} [DecidableEq α] : List (α × β) → α → Option β
  | [], _ => none
  | (k, v) :: rest, q => if k = q then some v else dictGet rest q

/-- `d[k] = v` on a Python dict: an existing key keeps its position and gets
the new value, a new key is appended at the end. -/
def dictSet {α β : Type} [DecidableEq α] : List (α × β) → α → β → List (α × β)
  | [], k, v => [(k, v)]
  | (k0, v0) :: rest, k, v =>
    if k0 = k then (k, v) :: rest else (k0, v0) :: dictSet rest k v

/-- The keys of a dict, in order. -/
def keys {α β : Type} (l : List (α × β)) : List α := l.map Prod.fst

/-- Candidate entry: plugin identity → metric, for one function. -/
abbrev CandidateEntry := List (PluginName × Metric)

/-- Candidate store: function address → candidate entry
(`IdentificationManager.candidate_functions`). -/
abbrev CandidateStore := List (Fva × CandidateEntry)

/-- `IdentificationManager.PLUGIN_WEIGHTS`: the fixed weight of each plugin. -/
def PLUGIN_WEIGHTS : List (PluginName × ℚ) :=
  [("XORPlugin", 1/2),
   ("ShiftPlugin", 1/2),
   ("MovPlugin", 3/10),
   ("FunctionCrossReferencesToPlugin", 1/5),
   ("FunctionArgumentCountPlugin", 1/5),
   ("FunctionBlockCountPlugin", 1/40),
   ("FunctionInstructionCountPlugin", 1/40),
   ("FunctionSizePlugin", 1/40),
   ("FunctionRecursivePlugin", 1/40),
   ("FunctionIsThunkPlugin", -1),
   ("FunctionIsLibraryPlugin", -1)]

/-- One iteration of the loop body in `IdentificationManager.merge_candidates`:
if the function already has a candidate entry, set only this plugin's key in
it; otherwise create a fresh entry holding only this plugin's metric. -/
def mergeOne (store : CandidateStore) (plugin_name : PluginName) (f : Fva)
    (m : Metric) : CandidateStore :=
  match dictGet store f with
  | some entry => dictSet store f (dictSet entry plugin_name m)
  | none => dictSet store f [(plugin_name, m)]

/-- The `for candidate_function in plugin_candidates` loop of
`merge_candidates`, iterating the plugin result dict in insertion order. -/
def mergeList (store : CandidateStore) (plugin_name : PluginName) :
    List (Fva × Metric) → CandidateStore
  | [] => store
  | (f, m) :: rest => mergeList (mergeOne store plugin_name f m) plugin_name rest

/-- `IdentificationManager.merge_candidates`. `none` models passing `None`;
`if not plugin_candidates` returns the store unchanged for `None` and for an
empty result dict. -/
def merge_candidates (store : CandidateStore) (plugin_name : PluginName)
    (plugin_candidates : Option (List (Fva × Metric))) : CandidateStore :=
  match plugin_candidates with
  | none => store
  | some l => if l.isEmpty then store else mergeList store plugin_name l

/-- The errors the engine can surface: an exception escaping a plugin's
identify/score call, or the `Exception("Plugin weight not found: ...")`
raised by `apply_plugin_weights`. -/
inductive FlossError where
  | pluginFailure (msg : String)
  | unknownPluginWeight (plugin_name : PluginName)
deriving DecidableEq

/-- The inner loop of `apply_plugin_weights`: fold one candidate entry into
`total_score`, raising as soon as a plugin name is missing from
`PLUGIN_WEIGHTS`. -/
def scoreEntry : CandidateEntry → ℚ → Except FlossError ℚ
  | [], total_score => .ok total_score
  | (plugin_name, score) :: rest, total_score =>
    match dictGet PLUGIN_WEIGHTS plugin_name with
    | none => .error (.unknownPluginWeight plugin_name)
    | some w => scoreEntry rest (total_score + w * score)

/-- The outer loop of `apply_plugin_weights`, accumulating
`functions_weighted` in store iteration order. -/
def applyLoop : CandidateStore → List (Fva × ℚ) → Except FlossError (List (Fva × ℚ))
  | [], functions_weighted => .ok functions_weighted
  | (f, entry) :: rest, functions_weighted =>
    match scoreEntry entry 0 with
    | .error e => .error e
    | .ok total_score => applyLoop rest (dictSet functions_weighted f total_score)

/-- `IdentificationManager.apply_plugin_weights`: per function, sum
`weight * metric` over the plugins present in its entry. -/
def apply_plugin_weights (store : CandidateStore) :
    Except FlossError (List (Fva × ℚ)) :=
  applyLoop store []

/-- `IdentificationManager.sort_candidates_by_score`: Python `sorted` is a
stable sort, and `reverse=True` keeps equal-key elements in their original
order, so it is the stable merge sort under `b.score ≤ a.score`. -/
def sort_candidates_by_score (candidates_weighted : List (Fva × ℚ)) :
    List (Fva × ℚ) :=
  candidates_weighted.mergeSort (fun a b => decide (b.2 ≤ a.2))

/-- Python slice `l[:n]`, including negative `n` (drop the last `-n`
elements, empty when `-n` exceeds the length). -/
def pySliceTo {α : Type} (l : List α) (n : Int) : List α :=
  if 0 ≤ n then l.take n.toNat else l.take (l.length - (-n).toNat)

/-- `IdentificationManager.get_top_candidate_functions`. -/
def get_top_candidate_functions (candidates_weighted : List (Fva × ℚ))
    (n : Int) : List (Fva × ℚ) :=
  (pySliceTo (sort_candidates_by_score candidates_weighted) n).map
    (fun p => (p.1, p.2))

/-- A heuristic plugin, modelled at its interface boundary: `name` is
`str(plugin)`, and the two operations may fail with an arbitrary error. -/
structure Plugin where
  name : PluginName
  identify : List Fva → Except FlossError (List (Fva × Metric))
  score : List (Fva × Metric) → Except FlossError (List (Fva × Metric))

/-- The body of the `for plugin in plugins` loop in
`IdentificationManager.run_plugins`: invoke identify, optionally score, and
merge; an exception escaping identify/score propagates as an error. -/
def run_plugins_step (p : Plugin) (functions : List Fva) (raw_data : Bool)
    (store : CandidateStore) : Except FlossError CandidateStore :=
  match p.identify functions with
  | .error e => .error e
  | .ok decoder_candidates =>
    if raw_data then
      .ok (merge_candidates store p.name (some decoder_candidates))
    else
      match p.score decoder_candidates with
      | .error e => .error e
      | .ok scored_candidates =>
        .ok (merge_candidates store p.name (some scored_candidates))

/-- `IdentificationManager.run_plugins`: run each plugin in order over the
function list, merging its (raw or scored) result into the store; any error
from identify/score propagates and aborts the loop. -/
def run_plugins (plugins : List Plugin) (functions : List Fva)
    (raw_data : Bool) (store : CandidateStore) :
    Except FlossError CandidateStore :=
  match plugins with
  | [] => .ok store
  | p :: rest =>
    match run_plugins_step p functions raw_data store with
    | .error e => .error e
    | .ok store2 => run_plugins rest functions raw_data store2

/-- `identify_decoding_functions`, parameterized by the plugin list that
`get_all_plugins` would return (the concrete plugins live in external
modules): run plugins (with `raw_data=False`), weight, then take top
`count`. -/
def identify_decoding_functions (plugins : List Plugin) (functions : List Fva)
    (count : Int) : Except FlossError (List (Fva × ℚ)) :=
  match run_plugins plugins functions false [] with
  | .error e => .error e
  | .ok store =>
    match apply_plugin_weights store with
    | .error e => .error e
    | .ok candidates_weighted =>
      .ok (get_top_candidate_functions candidates_weighted count)

/-- The metric recorded in the store for plugin `p` on function `f`. -/
def entryGet (store : CandidateStore) (f : Fva) (p : PluginName) :
    Option Metric :=
  (dictGet store f).bind (fun e => dictGet e p)

/-- The weight of a plugin identity (0 as a dummy for absent identities;
only used where presence is separately guaranteed). -/
def weightOf (p : PluginName) : ℚ := (dictGet PLUGIN_WEIGHTS p).getD 0

/-- The weighted sum over exactly the plugins present in an entry. -/
def entrySum (entry : CandidateEntry) : ℚ :=
  (entry.map (fun pm => weightOf pm.1 * pm.2)).sum

/-! ### Dictionary lemmas -/

theorem dictGet_dictSet_self {α β : Type} [DecidableEq α] (l : List (α × β))
    (k : α) (v : β) : dictGet (dictSet l k v) k = some v := by
  induction l with
  | nil => simp [dictGet, dictSet]
  | cons hd tl ih =>
    obtain ⟨k0, v0⟩ := hd
    by_cases h : k0 = k
    · simp [dictSet, h, dictGet]
    · simp [dictSet, h, dictGet, ih]

theorem dictGet_dictSet_ne {α β : Type} [DecidableEq α] (l : List (α × β))
    (k q : α) (v : β) (h : q ≠ k) : dictGet (dictSet l k v) q = dictGet l q := by
  induction l with
  | nil =>
    simp only [dictSet, dictGet]
    rw [if_neg (fun hh => h hh.symm)]
  | cons hd tl ih =>
    obtain ⟨k0, v0⟩ := hd
    by_cases h0 : k0 = k
    · subst h0
      simp only [dictSet, if_pos rfl, dictGet]
      rw [if_neg (fun hh => h hh.symm), if_neg (fun hh => h hh.symm)]
    · simp only [dictSet, if_neg h0, dictGet]
      by_cases hq : k0 = q
      · rw [if_pos hq, if_pos hq]
      · rw [if_neg hq, if_neg hq, ih]

theorem dictGet_isSome_iff {α β : Type} [DecidableEq α] (l : List (α × β))
    (k : α) : (dictGet l k).isSome = true ↔ k ∈ keys l := by
  induction l with
  | nil => simp [dictGet, keys]
  | cons hd tl ih =>
    obtain ⟨k0, v0⟩ := hd
    by_cases h : k0 = k
    · simp [dictGet, h, keys]
    · simp only [dictGet, if_neg h, keys, List.map_cons, List.mem_cons]
      rw [ih]
      constructor
      · intro hin
        exact Or.inr hin
      · rintro (heq | hin)
        · exact absurd heq.symm h
        · exact hin

theorem dictGet_eq_none_iff {α β : Type} [DecidableEq α] (l : List (α × β))
    (k : α) : dictGet l k = none ↔ k ∉ keys l := by
  rw [← dictGet_isSome_iff]
  cases dictGet l k <;> simp

theorem mem_keys_dictSet {α β : Type} [DecidableEq α] (l : List (α × β))
    (k : α) (v : β) (a : α) :
    a ∈ keys (dictSet l k v) ↔ a ∈ keys l ∨ a = k := by
  induction l with
  | nil => simp [dictSet, keys]
  | cons hd tl ih =>
    obtain ⟨k0, v0⟩ := hd
    by_cases h : k0 = k
    · subst h
      have he : dictSet ((k0, v0) :: tl) k0 v = (k0, v) :: tl := by
        simp [dictSet]
      rw [he]
      simp only [keys, List.map_cons, List.mem_cons]
      tauto
    · have he : dictSet ((k0, v0) :: tl) k v = (k0, v0) :: dictSet tl k v := by
        simp [dictSet, h]
      rw [he]
      simp only [keys, List.map_cons, List.mem_cons]
      rw [show (keys (dictSet tl k v) : List α) = List.map Prod.fst (dictSet tl k v) from rfl] at ih
      rw [ih]
      tauto

theorem nodup_keys_dictSet {α β : Type} [DecidableEq α] (l : List (α × β))
    (k : α) (v : β) (h : (keys l).Nodup) : (keys (dictSet l k v)).Nodup := by
  induction l with
  | nil => simp [dictSet, keys]
  | cons hd tl ih =>
    obtain ⟨k0, v0⟩ := hd
    simp only [keys, List.map_cons, List.nodup_cons] at h
    by_cases h0 : k0 = k
    · subst h0
      simpa [dictSet, keys, List.nodup_cons] using h
    · simp only [dictSet, if_neg h0, keys, List.map_cons, List.nodup_cons]
      refine ⟨?_, ih h.2⟩
      intro hmem
      rcases (mem_keys_dictSet tl k v k0).mp hmem with hin | heq
      · exact h.1 hin
      · exact h0 heq

theorem dictSet_eq_append {α β : Type} [DecidableEq α] (l : List (α × β))
    (k : α) (v : β) (h : k ∉ keys l) : dictSet l k v = l ++ [(k, v)] := by
  induction l with
  | nil => simp [dictSet]
  | cons hd tl ih =>
    obtain ⟨k0, v0⟩ := hd
    simp only [keys, List.map_cons, List.mem_cons] at h
    push_neg at h
    obtain ⟨h1, h2⟩ := h
    have hne : k0 ≠ k := fun hh => h1 hh.symm
    simp only [dictSet, if_neg hne, List.cons_append]
    rw [ih h2]

theorem dictGet_of_mem {α β : Type} [DecidableEq α] (l : List (α × β))
    (k : α) (v : β) (hnd : (keys l).Nodup) (hm : (k, v) ∈ l) :
    dictGet l k = some v := by
  induction l with
  | nil => simp at hm
  | cons hd tl ih =>
    obtain ⟨k0, v0⟩ := hd
    simp only [keys, List.map_cons, List.nodup_cons] at hnd
    rcases List.mem_cons.mp hm with heq | hin
    · obtain ⟨h1, h2⟩ := Prod.mk.injEq .. ▸ heq.symm
      simp [dictGet, h1, h2]
    · have hk : k0 ≠ k := by
        intro hh
        subst hh
        exact hnd.1 (List.mem_map_of_mem Prod.fst hin)
      simp [dictGet, hk, ih hnd.2 hin]

theorem dictGet_mem_of_eq_some {α β : Type} [DecidableEq α] (l : List (α × β))
    (k : α) (v : β) (h : dictGet l k = some v) : (k, v) ∈ l := by
  induction l with
  | nil => simp [dictGet] at h
  | cons hd tl ih =>
    obtain ⟨k0, v0⟩ := hd
    by_cases h0 : k0 = k
    · subst h0
      rw [show dictGet ((k0, v0) :: tl) k0 = some v0 from by rw [dictGet, if_pos rfl]] at h
      obtain rfl : v0 = v := Option.some.injEq .. ▸ h
      exact List.mem_cons_self _ _
    · simp only [dictGet, if_neg h0] at h
      exact List.mem_cons_of_mem _ (ih h)

/-! ### Merge lemmas -/

theorem entryGet_mergeOne_self (s : CandidateStore) (p : PluginName) (f : Fva)
    (m : Metric) : entryGet (mergeOne s p f m) f p = some m := by
  unfold mergeOne entryGet
  cases h : dictGet s f with
  | some entry =>
    rw [dictGet_dictSet_self]
    simp [dictGet_dictSet_self]
  | none =>
    rw [dictGet_dictSet_self]
    simp [dictGet]

theorem entryGet_mergeOne_ne_plugin (s : CandidateStore) (p : PluginName)
    (f : Fva) (m : Metric) (f1 : Fva) (q : PluginName) (hq : q ≠ p) :
    entryGet (mergeOne s p f m) f1 q = entryGet s f1 q := by
  unfold mergeOne entryGet
  by_cases hf : f1 = f
  · subst hf
    cases h : dictGet s f1 with
    | some entry =>
      rw [dictGet_dictSet_self]
      simp [dictGet_dictSet_ne _ _ _ _ hq]
    | none =>
      rw [dictGet_dictSet_self]
      have hpq : p ≠ q := fun hh => hq hh.symm
      simp [dictGet, hpq]
  · cases h : dictGet s f with
    | some entry => rw [dictGet_dictSet_ne _ _ _ _ hf]
    | none => rw [dictGet_dictSet_ne _ _ _ _ hf]

theorem entryGet_mergeOne_ne_f (s : CandidateStore) (p : PluginName) (f : Fva)
    (m : Metric) (f1 : Fva) (q : PluginName) (hf : f1 ≠ f) :
    entryGet (mergeOne s p f m) f1 q = entryGet s f1 q := by
  unfold mergeOne entryGet
  cases h : dictGet s f with
  | some entry => rw [dictGet_dictSet_ne _ _ _ _ hf]
  | none => rw [dictGet_dictSet_ne _ _ _ _ hf]

theorem mem_keys_mergeOne (s : CandidateStore) (p : PluginName) (f : Fva)
    (m : Metric) (a : Fva) :
    a ∈ keys (mergeOne s p f m) ↔ a ∈ keys s ∨ a = f := by
  unfold mergeOne
  cases h : dictGet s f with
  | some entry => exact mem_keys_dictSet s f _ a
  | none => exact mem_keys_dictSet s f _ a

theorem nodup_keys_mergeOne (s : CandidateStore) (p : PluginName) (f : Fva)
    (m : Metric) (h : (keys s).Nodup) : (keys (mergeOne s p f m)).Nodup := by
  unfold mergeOne
  cases dictGet s f with
  | some entry => exact nodup_keys_dictSet s f _ h
  | none => exact nodup_keys_dictSet s f _ h

theorem entryGet_mergeList_ne (s : CandidateStore) (p : PluginName)
    (l : List (Fva × Metric)) (f : Fva) (q : PluginName) (hq : q ≠ p) :
    entryGet (mergeList s p l) f q = entryGet s f q := by
  induction l generalizing s with
  | nil => rfl
  | cons hd tl ih =>
    obtain ⟨f0, m0⟩ := hd
    rw [mergeList, ih, entryGet_mergeOne_ne_plugin _ _ _ _ _ _ hq]

theorem entryGet_mergeList_not_mem (s : CandidateStore) (p : PluginName)
    (l : List (Fva × Metric)) (f : Fva) (q : PluginName)
    (hf : dictGet l f = none) :
    entryGet (mergeList s p l) f q = entryGet s f q := by
  induction l generalizing s with
  | nil => rfl
  | cons hd tl ih =>
    obtain ⟨f0, m0⟩ := hd
    have hne : f0 ≠ f := by
      intro hh
      rw [dictGet, if_pos hh] at hf
      exact Option.noConfusion hf
    rw [dictGet, if_neg hne] at hf
    rw [mergeList, ih _ hf, entryGet_mergeOne_ne_f _ _ _ _ _ _ (fun hh => hne hh.symm)]

theorem entryGet_mergeList_self (s : CandidateStore) (p : PluginName)
    (l : List (Fva × Metric)) (f : Fva) (m : Metric)
    (hl : (keys l).Nodup) (hm : dictGet l f = some m) :
    entryGet (mergeList s p l) f p = some m := by
  induction l generalizing s with
  | nil => exact Option.noConfusion hm
  | cons hd tl ih =>
    obtain ⟨f0, m0⟩ := hd
    simp only [keys, List.map_cons, List.nodup_cons] at hl
    by_cases h0 : f0 = f
    · subst h0
      rw [dictGet, if_pos rfl] at hm
      obtain rfl : m0 = m := Option.some.injEq .. ▸ hm
      have hnone : dictGet tl f0 = none :=
        (dictGet_eq_none_iff tl f0).mpr hl.1
      rw [mergeList, entryGet_mergeList_not_mem _ _ _ _ _ hnone,
        entryGet_mergeOne_self]
    · rw [dictGet, if_neg h0] at hm
      rw [mergeList]
      exact ih _ hl.2 hm

theorem mem_keys_mergeList (s : CandidateStore) (p : PluginName)
    (l : List (Fva × Metric)) (a : Fva) :
    a ∈ keys (mergeList s p l) ↔ a ∈ keys s ∨ a ∈ keys l := by
  induction l generalizing s with
  | nil => simp [mergeList, keys]
  | cons hd tl ih =>
    obtain ⟨f0, m0⟩ := hd
    rw [mergeList, ih]
    rw [mem_keys_mergeOne]
    simp only [keys, List.map_cons, List.mem_cons]
    tauto

theorem nodup_keys_mergeList (s : CandidateStore) (p : PluginName)
    (l : List (Fva × Metric)) (h : (keys s).Nodup) :
    (keys (mergeList s p l)).Nodup := by
  induction l generalizing s with
  | nil => exact h
  | cons hd tl ih =>
    obtain ⟨f0, m0⟩ := hd
    rw [mergeList]
    exact ih _ (nodup_keys_mergeOne _ _ _ _ h)

theorem merge_candidates_some (s : CandidateStore) (p : PluginName)
    (l : List (Fva × Metric)) :
    merge_candidates s p (some l) = mergeList s p l := by
  cases l with
  | nil => rfl
  | cons hd tl => rfl

/-! ### Scoring lemmas -/

theorem scoreEntry_ok (entry : CandidateEntry) (acc t : ℚ)
    (h : scoreEntry entry acc = .ok t) :
    (∀ pm ∈ entry, (dictGet PLUGIN_WEIGHTS pm.1).isSome = true) ∧
    t = acc + entrySum entry := by
  induction entry generalizing acc with
  | nil =>
    simp only [scoreEntry] at h
    obtain rfl : acc = t := Except.ok.injEq .. ▸ h
    exact ⟨by simp, by simp [entrySum]⟩
  | cons hd tl ih =>
    obtain ⟨pname, sc⟩ := hd
    simp only [scoreEntry] at h
    cases hw : dictGet PLUGIN_WEIGHTS pname with
    | none =>
      rw [hw] at h
      exact Except.noConfusion h
    | some w =>
      rw [hw] at h
      obtain ⟨hall, ht⟩ := ih _ h
      constructor
      · intro pm hpm
        rcases List.mem_cons.mp hpm with heq | hin
        · rw [heq, hw]
          rfl
        · exact hall pm hin
      · rw [ht]
        simp only [entrySum, List.map_cons, List.sum_cons, weightOf, hw,
          Option.getD_some]
        ring

theorem scoreEntry_error (entry : CandidateEntry) (acc : ℚ) (e : FlossError)
    (h : scoreEntry entry acc = .error e) :
    ∃ p, e = .unknownPluginWeight p ∧ dictGet PLUGIN_WEIGHTS p = none ∧
      ∃ m, (p, m) ∈ entry := by
  induction entry generalizing acc with
  | nil => exact Except.noConfusion h
  | cons hd tl ih =>
    obtain ⟨pname, sc⟩ := hd
    simp only [scoreEntry] at h
    cases hw : dictGet PLUGIN_WEIGHTS pname with
    | none =>
      rw [hw] at h
      obtain rfl : FlossError.unknownPluginWeight pname = e :=
        Except.error.injEq .. ▸ h
      exact ⟨pname, rfl, hw, sc, List.mem_cons_self _ _⟩
    | some w =>
      rw [hw] at h
      obtain ⟨p, hp1, hp2, m, hm⟩ := ih _ h
      exact ⟨p, hp1, hp2, m, List.mem_cons_of_mem _ hm⟩

theorem scoreEntry_error_of_unknown (entry : CandidateEntry) (acc : ℚ)
    (p : PluginName) (m : Metric) (hpm : (p, m) ∈ entry)
    (hw : dictGet PLUGIN_WEIGHTS p = none) :
    ∃ e, scoreEntry entry acc = .error e := by
  induction entry generalizing acc with
  | nil => simp at hpm
  | cons hd tl ih =>
    obtain ⟨pname, sc⟩ := hd
    rcases List.mem_cons.mp hpm with heq | hin
    · have hp : pname = p := (congrArg Prod.fst heq).symm
      subst hp
      simp only [scoreEntry]
      rw [hw]
      exact ⟨_, rfl⟩
    · simp only [scoreEntry]
      cases hw0 : dictGet PLUGIN_WEIGHTS pname with
      | none => exact ⟨_, rfl⟩
      | some w => exact ih _ hin

theorem applyLoop_ok (store : CandidateStore) :
    ∀ (acc res : List (Fva × ℚ)), (keys store).Nodup →
    (∀ a ∈ keys store, a ∉ keys acc) →
    applyLoop store acc = .ok res →
    res = acc ++ store.map (fun fe => (fe.1, entrySum fe.2)) ∧
    ∀ fe ∈ store, ∀ pm ∈ fe.2, (dictGet PLUGIN_WEIGHTS pm.1).isSome = true := by
  induction store with
  | nil =>
    intro acc res _ _ h
    simp only [applyLoop] at h
    obtain rfl : acc = res := Except.ok.injEq .. ▸ h
    exact ⟨by simp, by simp⟩
  | cons hd tl ih =>
    intro acc res hnd hdisj h
    obtain ⟨f, entry⟩ := hd
    simp only [applyLoop] at h
    cases hs : scoreEntry entry 0 with
    | error e =>
      rw [hs] at h
      exact Except.noConfusion h
    | ok t =>
      rw [hs] at h
      obtain ⟨hall, ht⟩ := scoreEntry_ok entry 0 t hs
      have hfacc : f ∉ keys acc := by
        refine hdisj f ?_
        simp [keys]
      have hset : dictSet acc f t = acc ++ [(f, t)] :=
        dictSet_eq_append _ _ _ hfacc
      change applyLoop tl (dictSet acc f t) = Except.ok res at h
      rw [hset] at h
      simp only [keys, List.map_cons, List.nodup_cons] at hnd
      have hdisj2 : ∀ a ∈ keys tl, a ∉ keys (acc ++ [(f, t)]) := by
        intro a ha
        have h1 : a ∉ keys acc := by
          refine hdisj a ?_
          simp only [keys, List.map_cons, List.mem_cons]
          exact Or.inr ha
        have h2 : a ≠ f := fun hh => hnd.1 (hh ▸ ha)
        simp only [keys, List.map_append, List.map_cons, List.map_nil,
          List.mem_append, List.mem_cons, List.not_mem_nil, or_false]
        rintro (hm | hm)
        · exact h1 hm
        · exact h2 hm
      obtain ⟨hres, hall2⟩ := ih (acc ++ [(f, t)]) res hnd.2 hdisj2 h
      constructor
      · rw [hres, ht]
        simp [List.append_assoc, zero_add]
      · intro fe hfe
        rcases List.mem_cons.mp hfe with heq | hin
        · subst heq
          intro pm hpm
          exact hall pm hpm
        · exact hall2 fe hin

/-- The weighted sum over a candidate entry (the claims quantify over it):
`weightOf p * metric`, summed over exactly the pairs present in the entry. -/
theorem entrySum_eq (entry : CandidateEntry) :
    entrySum entry = (entry.map (fun pm => weightOf pm.1 * pm.2)).sum := rfl

/-! ### Sorting lemmas -/

theorem scoreDesc_trans (a b c : Fva × ℚ)
    (hab : (fun x y : Fva × ℚ => decide (y.2 ≤ x.2)) a b = true)
    (hbc : (fun x y : Fva × ℚ => decide (y.2 ≤ x.2)) b c = true) :
    (fun x y : Fva × ℚ => decide (y.2 ≤ x.2)) a c = true := by
  simp only [decide_eq_true_eq] at hab hbc ⊢
  exact le_trans hbc hab

theorem scoreDesc_total (a b : Fva × ℚ) :
    ((fun x y : Fva × ℚ => decide (y.2 ≤ x.2)) a b ||
     (fun x y : Fva × ℚ => decide (y.2 ≤ x.2)) b a) = true := by
  simp only [Bool.or_eq_true, decide_eq_true_eq]
  exact le_total b.2 a.2

theorem sorted_sort_candidates_by_score (l : List (Fva × ℚ)) :
    (sort_candidates_by_score l).Pairwise (fun a b => b.2 ≤ a.2) := by
  have hs := List.sorted_mergeSort scoreDesc_trans scoreDesc_total l
  exact hs.imp (fun h => by simpa using h)

theorem perm_sort_candidates_by_score (l : List (Fva × ℚ)) :
    (sort_candidates_by_score l).Perm l :=
  List.mergeSort_perm l _

theorem map_pair_eta (l : List (Fva × ℚ)) :
    l.map (fun p => (p.1, p.2)) = l := by
  simp

/-! ### Orchestrator lemmas -/

theorem run_plugins_append_ok (l1 l2 : List Plugin) (functions : List Fva) :
    ∀ (s s1 : CandidateStore),
    run_plugins l1 functions false s = .ok s1 →
    run_plugins (l1 ++ l2) functions false s =
      run_plugins l2 functions false s1 := by
  induction l1 with
  | nil =>
    intro s s1 h
    simp only [run_plugins] at h
    obtain rfl : s = s1 := Except.ok.injEq .. ▸ h
    rfl
  | cons p rest ih =>
    intro s s1 h
    simp only [run_plugins] at h
    simp only [List.cons_append, run_plugins]
    cases hstep : run_plugins_step p functions false s with
    | error e =>
      rw [hstep] at h
      exact Except.noConfusion h
    | ok s2 =>
      rw [hstep] at h
      exact ih _ _ h

/-! ### Claim theorems -/

/-- C8: calling `merge_candidates` with an absent (`None`) or empty result
mapping is a no-op: the candidate store afterwards is exactly the store
before the call, with no entry added, removed, or modified. -/
theorem merge_candidates_noop (s : CandidateStore) (p : PluginName) :
    merge_candidates s p none = s ∧ merge_candidates s p (some []) = s :=
  ⟨rfl, rfl⟩

/-- C5: merging two result mappings in sequence under the same plugin
identity `p`: afterwards the store holds the second mapping's metric under
key `p` for every function address in it, while for every function address
every key belonging to a plugin identity other than `p` has exactly the
value it had before either merge. -/
theorem merge_overwrite (s : CandidateStore) (p : PluginName)
    (r1 r2 : List (Fva × Metric)) (h2 : (keys r2).Nodup) :
    (∀ f m, dictGet r2 f = some m →
      entryGet (merge_candidates (merge_candidates s p (some r1)) p (some r2))
        f p = some m) ∧
    (∀ f q, q ≠ p →
      entryGet (merge_candidates (merge_candidates s p (some r1)) p (some r2))
        f q = entryGet s f q) := by
  rw [merge_candidates_some, merge_candidates_some]
  constructor
  · intro f m hm
    exact entryGet_mergeList_self _ _ _ _ _ h2 hm
  · intro f q hq
    rw [entryGet_mergeList_ne _ _ _ _ _ hq, entryGet_mergeList_ne _ _ _ _ _ hq]

/-- Witness for C5: after merging MovPlugin results twice over a store that
already holds an XORPlugin metric, the second MovPlugin metric (3) wins and
the XORPlugin metric (1) is untouched. -/
theorem merge_overwrite_witness :
    entryGet (merge_candidates (merge_candidates [(1, [("XORPlugin", 1)])]
      "MovPlugin" (some [(1, 2)])) "MovPlugin" (some [(1, 3)]))
      1 "MovPlugin" = some 3 ∧
    entryGet (merge_candidates (merge_candidates [(1, [("XORPlugin", 1)])]
      "MovPlugin" (some [(1, 2)])) "MovPlugin" (some [(1, 3)]))
      1 "XORPlugin" = some 1 := by
  have h := merge_overwrite [(1, [("XORPlugin", 1)])] "MovPlugin"
    [(1, 2)] [(1, 3)] (by simp [keys])
  refine ⟨h.1 1 3 rfl, ?_⟩
  rw [h.2 1 "XORPlugin" (by decide)]
  rfl

/-- C6: merging result mappings of two distinct plugin identities in either
order yields extensionally equal candidate stores: the same function
addresses are present, and every (function, plugin) lookup agrees. -/
theorem merge_comm (s : CandidateStore) (A B : PluginName)
    (ra rb : List (Fva × Metric)) (hAB : A ≠ B)
    (hra : (keys ra).Nodup) (hrb : (keys rb).Nodup) :
    (∀ f, f ∈ keys (merge_candidates (merge_candidates s A (some ra)) B (some rb)) ↔
          f ∈ keys (merge_candidates (merge_candidates s B (some rb)) A (some ra))) ∧
    (∀ f q,
      entryGet (merge_candidates (merge_candidates s A (some ra)) B (some rb)) f q =
      entryGet (merge_candidates (merge_candidates s B (some rb)) A (some ra)) f q) := by
  rw [merge_candidates_some, merge_candidates_some, merge_candidates_some,
    merge_candidates_some]
  constructor
  · intro f
    rw [mem_keys_mergeList, mem_keys_mergeList, mem_keys_mergeList,
      mem_keys_mergeList]
    tauto
  · intro f q
    by_cases hqB : q = B
    · subst hqB
      have hqA : (q : PluginName) ≠ A := fun hh => hAB hh.symm
      cases hrbf : dictGet rb f with
      | some m =>
        rw [entryGet_mergeList_self _ _ _ _ _ hrb hrbf,
          entryGet_mergeList_ne _ _ _ _ _ hqA,
          entryGet_mergeList_self _ _ _ _ _ hrb hrbf]
      | none =>
        rw [entryGet_mergeList_not_mem _ _ _ _ _ hrbf,
          entryGet_mergeList_ne _ _ _ _ _ hqA,
          entryGet_mergeList_ne _ _ _ _ _ hqA,
          entryGet_mergeList_not_mem _ _ _ _ _ hrbf]
    · by_cases hqA : q = A
      · subst hqA
        have hqB2 : (q : PluginName) ≠ B := hqB
        cases hraf : dictGet ra f with
        | some m =>
          rw [entryGet_mergeList_ne _ _ _ _ _ hqB2,
            entryGet_mergeList_self _ _ _ _ _ hra hraf,
            entryGet_mergeList_self _ _ _ _ _ hra hraf]
        | none =>
          rw [entryGet_mergeList_ne _ _ _ _ _ hqB2,
            entryGet_mergeList_not_mem _ _ _ _ _ hraf,
            entryGet_mergeList_not_mem _ _ _ _ _ hraf,
            entryGet_mergeList_ne _ _ _ _ _ hqB2]
      · rw [entryGet_mergeList_ne _ _ _ _ _ hqB,
          entryGet_mergeList_ne _ _ _ _ _ hqA,
          entryGet_mergeList_ne _ _ _ _ _ hqA,
          entryGet_mergeList_ne _ _ _ _ _ hqB]

/-- Witness for C6 at a concrete store: XORPlugin then ShiftPlugin agrees
with ShiftPlugin then XORPlugin on membership and on a lookup. -/
theorem merge_comm_witness :
    (1 ∈ keys (merge_candidates (merge_candidates ([] : CandidateStore)
        "XORPlugin" (some [(1, 1)])) "ShiftPlugin" (some [(2, 2)])) ↔
     1 ∈ keys (merge_candidates (merge_candidates ([] : CandidateStore)
        "ShiftPlugin" (some [(2, 2)])) "XORPlugin" (some [(1, 1)]))) ∧
    entryGet (merge_candidates (merge_candidates ([] : CandidateStore)
        "XORPlugin" (some [(1, 1)])) "ShiftPlugin" (some [(2, 2)]))
      1 "XORPlugin" =
    entryGet (merge_candidates (merge_candidates ([] : CandidateStore)
        "ShiftPlugin" (some [(2, 2)])) "XORPlugin" (some [(1, 1)]))
      1 "XORPlugin" := by
  have h := merge_comm ([] : CandidateStore) "XORPlugin" "ShiftPlugin"
    [(1, 1)] [(2, 2)] (by decide) (by simp [keys]) (by simp [keys])
  exact ⟨h.1 1, h.2 1 "XORPlugin"⟩

/-- C1: on success, `apply_plugin_weights` maps exactly the function
addresses present in the store (in store order), and the value for each
function with entry `e` is the sum, over exactly the plugin identities
present in `e`, of `weight[plugin] * metric[plugin]` (each such plugin
provably has a weight; an absent plugin contributes no term). -/
theorem apply_plugin_weights_spec (store : CandidateStore)
    (hnd : (keys store).Nodup) (scores : List (Fva × ℚ))
    (hok : apply_plugin_weights store = .ok scores) :
    keys scores = keys store ∧
    ∀ f entry, (f, entry) ∈ store →
      (∀ pm ∈ entry, (dictGet PLUGIN_WEIGHTS pm.1).isSome = true) ∧
      dictGet scores f =
        some ((entry.map (fun pm => weightOf pm.1 * pm.2)).sum) := by
  obtain ⟨hres, hall⟩ := applyLoop_ok store [] scores hnd (by simp [keys]) hok
  rw [List.nil_append] at hres
  subst hres
  constructor
  · show List.map Prod.fst (store.map (fun fe => (fe.1, entrySum fe.2))) =
      List.map Prod.fst store
    rw [List.map_map]
    rfl
  · intro f entry hmem
    refine ⟨fun pm hpm => hall (f, entry) hmem pm hpm, ?_⟩
    have hmem2 : (f, entrySum entry) ∈
        store.map (fun fe => (fe.1, entrySum fe.2)) :=
      List.mem_map_of_mem _ hmem
    have hnd2 : (keys (store.map (fun fe => (fe.1, entrySum fe.2)))).Nodup := by
      show (List.map Prod.fst
        (store.map (fun fe => (fe.1, entrySum fe.2)))).Nodup
      rw [List.map_map]
      exact hnd
    exact dictGet_of_mem _ _ _ hnd2 hmem2

/-- Witness for C1 at the two-function store from the design document's
scenario: XOR and cross-reference evidence on one function, thunk evidence
on the other. -/
theorem apply_plugin_weights_spec_witness :
    keys [((4198400 : Fva), (7/10 : ℚ)), (4202496, -1)] =
      keys [((4198400 : Fva),
        [(("XORPlugin" : PluginName), (1 : ℚ)),
         ("FunctionCrossReferencesToPlugin", 1)]),
        (4202496, [("FunctionIsThunkPlugin", 1)])] ∧
    ∀ f entry, (f, entry) ∈
      [((4198400 : Fva),
        [(("XORPlugin" : PluginName), (1 : ℚ)),
         ("FunctionCrossReferencesToPlugin", 1)]),
        (4202496, [("FunctionIsThunkPlugin", 1)])] →
      (∀ pm ∈ entry, (dictGet PLUGIN_WEIGHTS pm.1).isSome = true) ∧
      dictGet [((4198400 : Fva), (7/10 : ℚ)), (4202496, -1)] f =
        some ((entry.map (fun pm => weightOf pm.1 * pm.2)).sum) := by
  refine apply_plugin_weights_spec _ (by simp [keys]) _ ?_
  show applyLoop _ [] = _
  simp [applyLoop, scoreEntry, PLUGIN_WEIGHTS, dictGet, dictSet]
  norm_num

theorem applyLoop_error_shape (store : CandidateStore) :
    ∀ (acc : List (Fva × ℚ)) (e : FlossError),
    applyLoop store acc = .error e →
    ∃ p, e = .unknownPluginWeight p ∧ dictGet PLUGIN_WEIGHTS p = none ∧
      ∃ f entry, (f, entry) ∈ store ∧ ∃ m, (p, m) ∈ entry := by
  induction store with
  | nil =>
    intro acc e h
    exact Except.noConfusion h
  | cons hd tl ih =>
    intro acc e h
    obtain ⟨f, entry⟩ := hd
    simp only [applyLoop] at h
    cases hs : scoreEntry entry 0 with
    | error e2 =>
      rw [hs] at h
      have he : e2 = e := Except.error.injEq .. ▸ h
      obtain ⟨p, hp1, hp2, m, hm⟩ := scoreEntry_error entry 0 e2 hs
      exact ⟨p, he ▸ hp1, hp2, f, entry, List.mem_cons_self _ _, m, hm⟩
    | ok t =>
      rw [hs] at h
      obtain ⟨p, hp1, hp2, f2, e2, hmem, m, hm⟩ := ih _ _ h
      exact ⟨p, hp1, hp2, f2, e2, List.mem_cons_of_mem _ hmem, m, hm⟩

theorem applyLoop_error_of_unknown (store : CandidateStore) :
    ∀ (acc : List (Fva × ℚ)) (f : Fva) (entry : CandidateEntry)
    (p : PluginName) (m : Metric),
    (f, entry) ∈ store → (p, m) ∈ entry → dictGet PLUGIN_WEIGHTS p = none →
    ∃ e, applyLoop store acc = .error e := by
  induction store with
  | nil =>
    intro acc f entry p m hfe _ _
    simp at hfe
  | cons hd tl ih =>
    intro acc f entry p m hfe hpm hw
    obtain ⟨f0, e0⟩ := hd
    simp only [applyLoop]
    cases hs : scoreEntry e0 0 with
    | error e2 => exact ⟨e2, rfl⟩
    | ok t =>
      rcases List.mem_cons.mp hfe with heq | hin
      · have h1 : entry = e0 := congrArg Prod.snd heq
        obtain ⟨e2, he2⟩ := scoreEntry_error_of_unknown e0 0 p m (h1 ▸ hpm) hw
        rw [hs] at he2
        exact Except.noConfusion he2
      · exact ih _ f entry p m hin hpm hw

/-- C2: if any function's candidate entry mentions a plugin identity with
no weight, `apply_plugin_weights` fails with the unknown-plugin-weight
error naming such an identity (one that provably occurs in some entry),
and yields no score mapping at all — not even for functions whose plugins
all have known weights. -/
theorem apply_plugin_weights_unknown (store : CandidateStore)
    (h : ∃ f entry pm, (f, entry) ∈ store ∧ pm ∈ entry ∧
      dictGet PLUGIN_WEIGHTS pm.1 = none) :
    ∃ p, apply_plugin_weights store = .error (.unknownPluginWeight p) ∧
      dictGet PLUGIN_WEIGHTS p = none ∧
      (∃ f entry, (f, entry) ∈ store ∧ ∃ m, (p, m) ∈ entry) ∧
      ∀ scores, apply_plugin_weights store ≠ .ok scores := by
  obtain ⟨f, entry, pm, hfe, hpm, hw⟩ := h
  obtain ⟨e, he⟩ :=
    applyLoop_error_of_unknown store [] f entry pm.1 pm.2 hfe hpm hw
  obtain ⟨p, hp1, hp2, hmem⟩ := applyLoop_error_shape store [] e he
  subst hp1
  refine ⟨p, he, hp2, hmem, ?_⟩
  intro scores hcon
  rw [show apply_plugin_weights store = applyLoop store [] from rfl, he] at hcon
  exact Except.noConfusion hcon

/-- Witness for C2: a store holding one known plugin identity and one
unknown one ("BogusPlugin") makes scoring fail as a whole. -/
theorem apply_plugin_weights_unknown_witness :
    ∃ p, apply_plugin_weights
        [(1, [("XORPlugin", 1)]), (2, [("BogusPlugin", 2)])] =
      .error (.unknownPluginWeight p) ∧
      dictGet PLUGIN_WEIGHTS p = none ∧
      (∃ f entry, (f, entry) ∈
        [((1 : Fva), [(("XORPlugin" : PluginName), (1 : ℚ))]),
         (2, [("BogusPlugin", 2)])] ∧
        ∃ m, (p, m) ∈ entry) ∧
      ∀ scores, apply_plugin_weights
        [(1, [("XORPlugin", 1)]), (2, [("BogusPlugin", 2)])] ≠ .ok scores :=
  apply_plugin_weights_unknown _
    ⟨2, [("BogusPlugin", 2)], ("BogusPlugin", 2), by simp, by simp, rfl⟩

/-- C3: for `n ≥ 0`, `get_top_candidate_functions` returns exactly
`min n |scores|` pairs, sorted by score descending, forming a prefix (hence
a subsequence) of the fully sorted sequence; `n = 0` gives the empty
sequence. -/
theorem get_top_candidate_functions_spec (scores : List (Fva × ℚ)) (n : Int)
    (hn : 0 ≤ n) :
    (get_top_candidate_functions scores n).length =
      min n.toNat scores.length ∧
    (get_top_candidate_functions scores n).Pairwise (fun a b => b.2 ≤ a.2) ∧
    ∃ rest, get_top_candidate_functions scores n ++ rest =
      sort_candidates_by_score scores := by
  unfold get_top_candidate_functions pySliceTo
  rw [if_pos hn, map_pair_eta]
  refine ⟨?_, ?_, ?_⟩
  · rw [List.length_take]
    unfold sort_candidates_by_score
    rw [List.length_mergeSort]
  · exact (sorted_sort_candidates_by_score scores).sublist
      (List.take_sublist _ _)
  · exact ⟨_, List.take_append_drop _ _⟩

/-- Witness for C3 on a two-element score mapping with `n = 1`. -/
theorem get_top_candidate_functions_spec_witness :
    (get_top_candidate_functions [(1, 1), (2, 2)] 1).length =
      min (Int.toNat 1) ([((1 : Fva), (1 : ℚ)), (2, 2)].length) ∧
    (get_top_candidate_functions [(1, 1), (2, 2)] 1).Pairwise
      (fun a b => b.2 ≤ a.2) ∧
    ∃ rest, get_top_candidate_functions [(1, 1), (2, 2)] 1 ++ rest =
      sort_candidates_by_score [(1, 1), (2, 2)] :=
  get_top_candidate_functions_spec [(1, 1), (2, 2)] 1 (by decide)

/-- C7 counterexample: a negative count is neither rejected nor clamped to
the empty result: with two scored functions and `count = -1` the ranker
returns a non-empty list (Python slice `l[:-1]`). -/
theorem get_top_negative_counterexample :
    get_top_candidate_functions [(1, 1), (2, 2)] (-1) = [(2, 2)] ∧
    get_top_candidate_functions [(1, 1), (2, 2)] (-1) ≠ [] := by
  constructor
  · show (pySliceTo (sort_candidates_by_score [(1, 1), (2, 2)]) (-1)).map
      (fun p => (p.1, p.2)) = [(2, 2)]
    rw [show sort_candidates_by_score [(1, 1), (2, 2)] = [(2, 2), (1, 1)] from by
      simp [sort_candidates_by_score, List.mergeSort]]
    rfl
  · rw [show get_top_candidate_functions [(1, 1), (2, 2)] (-1) = [(2, 2)] from by
      show (pySliceTo (sort_candidates_by_score [(1, 1), (2, 2)]) (-1)).map
        (fun p => (p.1, p.2)) = [(2, 2)]
      rw [show sort_candidates_by_score [(1, 1), (2, 2)] = [(2, 2), (1, 1)] from by
        simp [sort_candidates_by_score, List.mergeSort]]
      rfl]
    simp

/-- C7 amended: for `count < 0` the ranker follows Python slice semantics:
it returns the descending-sorted sequence with its last
`min (-count) |scores|` entries removed — still sorted and still a prefix
of the full ranking, but possibly non-empty. -/
theorem get_top_negative_spec (scores : List (Fva × ℚ)) (n : Int)
    (hn : n < 0) :
    (get_top_candidate_functions scores n).length =
      scores.length - min (-n).toNat scores.length ∧
    (get_top_candidate_functions scores n).Pairwise (fun a b => b.2 ≤ a.2) ∧
    ∃ rest, get_top_candidate_functions scores n ++ rest =
      sort_candidates_by_score scores := by
  unfold get_top_candidate_functions pySliceTo
  rw [if_neg (by omega), map_pair_eta]
  refine ⟨?_, ?_, ?_⟩
  · rw [List.length_take]
    unfold sort_candidates_by_score
    rw [List.length_mergeSort]
    omega
  · exact (sorted_sort_candidates_by_score scores).sublist
      (List.take_sublist _ _)
  · exact ⟨_, List.take_append_drop _ _⟩

/-- Witness for the amended C7 on a two-element score mapping with
`count = -1`. -/
theorem get_top_negative_spec_witness :
    (get_top_candidate_functions [(1, 1), (2, 2)] (-1)).length =
      ([((1 : Fva), (1 : ℚ)), (2, 2)].length -
        min (Int.toNat (-(-1))) ([((1 : Fva), (1 : ℚ)), (2, 2)].length)) ∧
    (get_top_candidate_functions [(1, 1), (2, 2)] (-1)).Pairwise
      (fun a b => b.2 ≤ a.2) ∧
    ∃ rest, get_top_candidate_functions [(1, 1), (2, 2)] (-1) ++ rest =
      sort_candidates_by_score [(1, 1), (2, 2)] :=
  get_top_negative_spec [(1, 1), (2, 2)] (-1) (by decide)

/-- C9: the weight table maps exactly the eleven enumerated plugin
identities to their weights (0.5, 0.5, 0.3, 0.2, 0.2, 0.025, 0.025, 0.025,
0.025, -1.0, -1.0 as rationals), and no other identity has a weight. -/
theorem PLUGIN_WEIGHTS_spec :
    dictGet PLUGIN_WEIGHTS "XORPlugin" = some (1/2) ∧
    dictGet PLUGIN_WEIGHTS "ShiftPlugin" = some (1/2) ∧
    dictGet PLUGIN_WEIGHTS "MovPlugin" = some (3/10) ∧
    dictGet PLUGIN_WEIGHTS "FunctionCrossReferencesToPlugin" = some (1/5) ∧
    dictGet PLUGIN_WEIGHTS "FunctionArgumentCountPlugin" = some (1/5) ∧
    dictGet PLUGIN_WEIGHTS "FunctionBlockCountPlugin" = some (1/40) ∧
    dictGet PLUGIN_WEIGHTS "FunctionInstructionCountPlugin" = some (1/40) ∧
    dictGet PLUGIN_WEIGHTS "FunctionSizePlugin" = some (1/40) ∧
    dictGet PLUGIN_WEIGHTS "FunctionRecursivePlugin" = some (1/40) ∧
    dictGet PLUGIN_WEIGHTS "FunctionIsThunkPlugin" = some (-1) ∧
    dictGet PLUGIN_WEIGHTS "FunctionIsLibraryPlugin" = some (-1) ∧
    ∀ p : PluginName,
      p ∉ (["XORPlugin", "ShiftPlugin", "MovPlugin",
        "FunctionCrossReferencesToPlugin", "FunctionArgumentCountPlugin",
        "FunctionBlockCountPlugin", "FunctionInstructionCountPlugin",
        "FunctionSizePlugin", "FunctionRecursivePlugin",
        "FunctionIsThunkPlugin", "FunctionIsLibraryPlugin"] :
          List PluginName) →
      dictGet PLUGIN_WEIGHTS p = none := by
  refine ⟨rfl, rfl, rfl, rfl, rfl, rfl, rfl, rfl, rfl, rfl, rfl, ?_⟩
  intro p hp
  refine (dictGet_eq_none_iff _ _).mpr ?_
  intro hmem
  exact hp hmem

/-- Witness for C9: an identity outside the table has no weight. -/
theorem PLUGIN_WEIGHTS_spec_witness :
    dictGet PLUGIN_WEIGHTS "FooPlugin" = none :=
  PLUGIN_WEIGHTS_spec.2.2.2.2.2.2.2.2.2.2.2 "FooPlugin" (by decide)

/-- C10: the ranking is a stable descending sort: the weighted-score
mapping inherits the store's key order (which is first-insertion order),
and for every score value the equal-scored entries appear in the ranked
output in exactly the order they have in the score mapping. -/
theorem sort_candidates_by_score_stable (store : CandidateStore)
    (scores : List (Fva × ℚ)) (hnd : (keys store).Nodup)
    (hok : apply_plugin_weights store = .ok scores) :
    (sort_candidates_by_score scores).Pairwise (fun a b => b.2 ≤ a.2) ∧
    keys scores = keys store ∧
    ∀ q : ℚ, (sort_candidates_by_score scores).filter
        (fun x => decide (x.2 = q)) =
      scores.filter (fun x => decide (x.2 = q)) := by
  refine ⟨sorted_sort_candidates_by_score scores, ?_, ?_⟩
  · obtain ⟨hres, h2⟩ := applyLoop_ok store [] scores hnd (by simp [keys]) hok
    rw [List.nil_append] at hres
    subst hres
    show List.map Prod.fst (store.map (fun fe => (fe.1, entrySum fe.2))) =
      List.map Prod.fst store
    rw [List.map_map]
    rfl
  · intro q
    have hsubl : List.Sublist (scores.filter (fun x => decide (x.2 = q)))
        scores :=
      List.filter_sublist _
    have hpw : (scores.filter (fun x => decide (x.2 = q))).Pairwise
        (fun a b : Fva × ℚ => decide (b.2 ≤ a.2) = true) := by
      apply List.pairwise_of_forall_mem_list
      intro a ha b hb
      have ha2 : a.2 = q := of_decide_eq_true (List.mem_filter.mp ha).2
      have hb2 : b.2 = q := of_decide_eq_true (List.mem_filter.mp hb).2
      show decide (b.2 ≤ a.2) = true
      rw [ha2, hb2]
      simp
    have hsub2 : List.Sublist (scores.filter (fun x => decide (x.2 = q)))
        (List.mergeSort scores (fun a b : Fva × ℚ => decide (b.2 ≤ a.2))) :=
      List.sublist_mergeSort scoreDesc_trans scoreDesc_total hpw hsubl
    have hid : (scores.filter (fun x => decide (x.2 = q))).filter
        (fun x => decide (x.2 = q)) =
        scores.filter (fun x => decide (x.2 = q)) :=
      List.filter_eq_self.mpr (fun a ha => (List.mem_filter.mp ha).2)
    have hsub3 : List.Sublist (scores.filter (fun x => decide (x.2 = q)))
        ((List.mergeSort scores
          (fun a b : Fva × ℚ => decide (b.2 ≤ a.2))).filter
          (fun x => decide (x.2 = q))) :=
      hid ▸ hsub2.filter (fun x => decide (x.2 = q))
    have hperm : List.Perm ((List.mergeSort scores
        (fun a b : Fva × ℚ => decide (b.2 ≤ a.2))).filter
          (fun x => decide (x.2 = q)))
        (scores.filter (fun x => decide (x.2 = q))) :=
      (List.mergeSort_perm scores _).filter _
    exact (hsub3.eq_of_length hperm.length_eq.symm).symm

/-- Witness for C10 on a store producing two equal weighted scores. -/
theorem sort_candidates_by_score_stable_witness :
    (sort_candidates_by_score [(1, 1/2), (2, 1/2)]).Pairwise
      (fun a b => b.2 ≤ a.2) ∧
    keys [((1 : Fva), (1/2 : ℚ)), (2, 1/2)] =
      keys [((1 : Fva), [(("XORPlugin" : PluginName), (1 : ℚ))]),
        (2, [("ShiftPlugin", 1)])] ∧
    ∀ q : ℚ, (sort_candidates_by_score [(1, 1/2), (2, 1/2)]).filter
        (fun x => decide (x.2 = q)) =
      [((1 : Fva), (1/2 : ℚ)), (2, 1/2)].filter
        (fun x => decide (x.2 = q)) := by
  refine sort_candidates_by_score_stable
    [(1, [("XORPlugin", 1)]), (2, [("ShiftPlugin", 1)])]
    [(1, 1/2), (2, 1/2)] (by simp [keys]) ?_
  show applyLoop _ [] = _
  simp [applyLoop, scoreEntry, PLUGIN_WEIGHTS, dictGet, dictSet]

/-- C4: if a plugin's identify or score call fails (after any prefix of
plugins that ran successfully), the error propagates verbatim out of
`run_plugins` and `identify_decoding_functions`, independent of every
plugin after the failing one: later plugins contribute nothing, scoring
and ranking never execute, and no ranked result is returned. -/
theorem plugin_error_propagates (pre post : List Plugin) (pbad : Plugin)
    (functions : List Fva) (count : Int) (e : FlossError)
    (s1 : CandidateStore)
    (hpre : run_plugins pre functions false [] = .ok s1)
    (hbad : pbad.identify functions = .error e ∨
      ∃ d, pbad.identify functions = .ok d ∧ pbad.score d = .error e) :
    run_plugins (pre ++ pbad :: post) functions false [] = .error e ∧
    identify_decoding_functions (pre ++ pbad :: post) functions count =
      .error e := by
  have hstep : run_plugins_step pbad functions false s1 = .error e := by
    rcases hbad with h1 | ⟨d, h2, h3⟩
    · unfold run_plugins_step
      rw [h1]
    · unfold run_plugins_step
      rw [h2]
      show (match pbad.score d with
        | .error e => (.error e : Except FlossError CandidateStore)
        | .ok scored_candidates =>
          .ok (merge_candidates s1 pbad.name (some scored_candidates))) =
        .error e
      rw [h3]
  have hrun : run_plugins (pre ++ pbad :: post) functions false [] =
      .error e := by
    rw [run_plugins_append_ok pre (pbad :: post) functions [] s1 hpre]
    simp only [run_plugins]
    rw [hstep]
  refine ⟨hrun, ?_⟩
  unfold identify_decoding_functions
  rw [hrun]

/-- Witness for C4: a single plugin whose identify call fails makes the
whole pipeline return exactly that error. -/
theorem plugin_error_propagates_witness :
    run_plugins [⟨"XORPlugin", fun _ => .error (.pluginFailure "boom"),
      fun c => .ok c⟩] [] false [] = .error (.pluginFailure "boom") ∧
    identify_decoding_functions [⟨"XORPlugin",
      fun _ => .error (.pluginFailure "boom"), fun c => .ok c⟩] [] 10 =
      .error (.pluginFailure "boom") :=
  plugin_error_propagates [] []
    ⟨"XORPlugin", fun _ => .error (.pluginFailure "boom"), fun c => .ok c⟩
    [] 10 (.pluginFailure "boom") [] rfl (Or.inl rfl)

end Floss
